import Mathlib

set_option maxRecDepth 4000

/-!
Verification of the ghouls branch-pruning tool.

This file embeds, in Lean, the data model and the operations of the
ghouls repository (a CLI tool that deletes git branches whose pull
requests have been merged) and proves properties of these embeddings:

* the data model of `src/OctokitPlus.ts` and `src/utils/localGitOperations.ts`
  (pull requests, references, local branches);
* the safety configuration of `src/types/config.ts`
  (`SafetyConfig`, `mergeSafetyConfig`, `getEffectiveSafetyConfig`);
* the safety evaluator of `src/utils/branchSafetyChecks.ts`
  (`isBranchSafeToDelete`, `filterSafeBranches`);
* the local and remote pruning flows of `src/commands/PrunePullRequests.ts`
  (`getMergedPRsMap`, `PruneLocalBranches.perform`,
  `PrunePullRequest.collectDeletableBranches`, `PrunePullRequest.perform`);
* the combined flow of `src/commands/PruneAll.ts`;
* the protected-branch placeholder expansion whose implementation file is
  absent from the sources (only its unit tests remain); it is modelled
  from the specification.

External collaborators (the git subprocess runner, the JavaScript RegExp
engine, the GitHub API and the interactive prompt) are modelled as
explicit function parameters: an oracle for `getBranchStatus`, an oracle
for regular-expression tests, an oracle for the live ref lookup, an
oracle for deletion success, and the user's interactive selection.
-/

/-- `src/OctokitPlus.ts`: `User`. -/
structure User where
  login : String
  deriving DecidableEq

/-- `src/OctokitPlus.ts`: `Repo`. -/
structure Repo where
  owner : User
  name : String
  fork : Bool
  deriving DecidableEq

/-- `src/OctokitPlus.ts`: `PullRequestReference` (`repo` may be `null`). -/
structure PullRequestReference where
  label : String
  ref : String
  sha : String
  repo : Option Repo
  deriving DecidableEq

/-- `src/OctokitPlus.ts`: `ReferenceObject`. -/
structure ReferenceObject where
  sha : String
  type : String
  url : String
  deriving DecidableEq

/-- `src/OctokitPlus.ts`: `Reference`. -/
structure Reference where
  ref : String
  url : String
  object : ReferenceObject
  deriving DecidableEq

/-- `src/OctokitPlus.ts`: `PullRequest`.  `merge_commit_sha` is
`string | null`; the `user` field is never inspected and is omitted. -/
structure PullRequest where
  id : Nat
  number : Nat
  state : String
  head : PullRequestReference
  base : PullRequestReference
  merge_commit_sha : Option String
  deriving DecidableEq

/-- JavaScript truthiness of a `string | null` value: `null` and the
empty string are falsy.  Used wherever the source writes
`if (pr.merge_commit_sha)` or `!pr.merge_commit_sha`. -/
def optStrTruthy : Option String → Bool
  | none => false
  | some s => !s.isEmpty

/-- `src/utils/localGitOperations.ts`: `LocalBranch`. -/
structure LocalBranch where
  name : String
  sha : String
  isCurrent : Bool
  deriving DecidableEq

/-- `src/utils/localGitOperations.ts`: `BranchStatus` (ahead/behind counts). -/
structure BranchStatus where
  ahead : Nat
  behind : Nat
  deriving DecidableEq

/-- `src/utils/branchSafetyChecks.ts`: `SafetyCheckResult`. -/
structure SafetyCheckResult where
  safe : Bool
  reason : Option String
  deriving DecidableEq

/-- `src/types/config.ts`: an entry of `customSafetyRules`. -/
structure CustomSafetyRule where
  name : String
  pattern : String
  reason : String
  deriving DecidableEq

/-- `src/types/config.ts`: `SafetyConfig` (every field optional). -/
structure SafetyConfig where
  protectedBranches : Option (List String)
  additionalProtectedPatterns : Option (List String)
  allowUnpushedCommits : Option Bool
  requireMergedPR : Option Bool
  customSafetyRules : Option (List CustomSafetyRule)
  deriving DecidableEq

/-- `src/types/config.ts`: `Required<SafetyConfig>`, the shape of
`DEFAULT_SAFETY_CONFIG` and of the result of `getEffectiveSafetyConfig`. -/
structure EffectiveSafetyConfig where
  protectedBranches : List String
  additionalProtectedPatterns : List String
  allowUnpushedCommits : Bool
  requireMergedPR : Bool
  customSafetyRules : List CustomSafetyRule
  deriving DecidableEq

/-- `src/types/config.ts`: `DEFAULT_PROTECTED_BRANCHES` (the seven exact
names shipped with the `SafetyConfig` revision of the file). -/
def DEFAULT_PROTECTED_BRANCHES : List String :=
  ["main", "master", "develop", "dev", "staging", "production", "prod"]

/-- `src/types/config.ts`: `DEFAULT_SAFETY_CONFIG`. -/
def DEFAULT_SAFETY_CONFIG : EffectiveSafetyConfig :=
  { protectedBranches := DEFAULT_PROTECTED_BRANCHES
    additionalProtectedPatterns := []
    allowUnpushedCommits := false
    requireMergedPR := true
    customSafetyRules := [] }

/-- View a fully-populated configuration as a `SafetyConfig` whose every
field is present (TypeScript's `Required<SafetyConfig>` is a subtype of
`SafetyConfig`). -/
def EffectiveSafetyConfig.toSafetyConfig (c : EffectiveSafetyConfig) : SafetyConfig :=
  { protectedBranches := some c.protectedBranches
    additionalProtectedPatterns := some c.additionalProtectedPatterns
    allowUnpushedCommits := some c.allowUnpushedCommits
    requireMergedPR := some c.requireMergedPR
    customSafetyRules := some c.customSafetyRules }

/-- One step of the `for (const config of configs)` loop of
`mergeSafetyConfig` in `src/types/config.ts`: protected branches and the
boolean flags are replaced (last config wins), patterns and custom rules
are concatenated.  A present-but-empty array is truthy in JavaScript, so
presence is tested with `Option`. -/
def mergeSafetyConfigStep (merged : SafetyConfig) (config : Option SafetyConfig) : SafetyConfig :=
  match config with
  | none => merged
  | some c =>
    { protectedBranches :=
        match c.protectedBranches with
        | some l => some l
        | none => merged.protectedBranches
      additionalProtectedPatterns :=
        match c.additionalProtectedPatterns with
        | some l => some ((merged.additionalProtectedPatterns.getD []) ++ l)
        | none => merged.additionalProtectedPatterns
      allowUnpushedCommits :=
        match c.allowUnpushedCommits with
        | some b => some b
        | none => merged.allowUnpushedCommits
      requireMergedPR :=
        match c.requireMergedPR with
        | some b => some b
        | none => merged.requireMergedPR
      customSafetyRules :=
        match c.customSafetyRules with
        | some l => some ((merged.customSafetyRules.getD []) ++ l)
        | none => merged.customSafetyRules }

/-- `src/types/config.ts`: `mergeSafetyConfig` (variadic in TypeScript,
a list here; `undefined` arguments are skipped). -/
def mergeSafetyConfig (configs : List (Option SafetyConfig)) : SafetyConfig :=
  configs.foldl mergeSafetyConfigStep
    { protectedBranches := none
      additionalProtectedPatterns := none
      allowUnpushedCommits := none
      requireMergedPR := none
      customSafetyRules := none }

/-- `src/types/config.ts`: `getEffectiveSafetyConfig(config)` =
merge `DEFAULT_SAFETY_CONFIG` with the user config, then fill any field
still absent from the defaults (`||` / `??` in the source; a present
empty array is truthy and is kept). -/
def getEffectiveSafetyConfig (config : Option SafetyConfig) : EffectiveSafetyConfig :=
  let merged := mergeSafetyConfig [some DEFAULT_SAFETY_CONFIG.toSafetyConfig, config]
  { protectedBranches := merged.protectedBranches.getD DEFAULT_SAFETY_CONFIG.protectedBranches
    additionalProtectedPatterns :=
      merged.additionalProtectedPatterns.getD DEFAULT_SAFETY_CONFIG.additionalProtectedPatterns
    allowUnpushedCommits := merged.allowUnpushedCommits.getD DEFAULT_SAFETY_CONFIG.allowUnpushedCommits
    requireMergedPR := merged.requireMergedPR.getD DEFAULT_SAFETY_CONFIG.requireMergedPR
    customSafetyRules := merged.customSafetyRules.getD DEFAULT_SAFETY_CONFIG.customSafetyRules }

/-- Executable model of JavaScript's `String.prototype.toLowerCase()`
(used by the source on ASCII branch names): lower-case every character.
Lean's built-in `String.toLower` is extensionally the same function but
is defined by position-based recursion that the kernel cannot evaluate,
so witnesses could not be checked with it. -/
def strToLower (s : String) : String :=
  ⟨s.data.map Char.toLower⟩

/-- The reason string interpolated by `src/utils/branchSafetyChecks.ts`
for the unpushed-commits guard, with its pluralization. -/
def unpushedReason (ahead : Nat) : String :=
  toString ahead ++ " unpushed commit" ++ (if ahead == 1 then "" else "s")

/-- `src/utils/branchSafetyChecks.ts`: `isBranchSafeToDelete` (the
`SafetyConfig`-aware revision).  The two external calls are passed as
oracles: `regexTest pattern s` models `new RegExp(pattern, "i").test(s)`
(`none` models a RegExp constructor throw, which the source skips), and
`branchStatus` models `getBranchStatus` (a git subprocess). -/
def isBranchSafeToDelete (regexTest : String → String → Option Bool)
    (branchStatus : String → Option BranchStatus)
    (branch : LocalBranch) (currentBranch : String)
    (matchingPR : Option PullRequest) (config : Option SafetyConfig) : SafetyCheckResult :=
  let effectiveConfig := getEffectiveSafetyConfig config
  -- Never delete the current branch
  if branch.isCurrent || branch.name == currentBranch then
    { safe := false, reason := some "current branch" }
  else
  -- Check protected branch names (case-insensitive)
  let protectedBranches := effectiveConfig.protectedBranches.map strToLower
  if protectedBranches.contains (strToLower branch.name) then
    { safe := false, reason := some "protected branch" }
  else
  -- Check additional protected patterns (first matching pattern returns;
  -- an invalid pattern is skipped)
  match effectiveConfig.additionalProtectedPatterns.find?
      (fun p => regexTest p branch.name == some true) with
  | some pattern => { safe := false, reason := some ("matches protected pattern: " ++ pattern) }
  | none =>
  -- Check custom safety rules
  match effectiveConfig.customSafetyRules.find?
      (fun r => regexTest r.pattern branch.name == some true) with
  | some rule => { safe := false, reason := some rule.reason }
  | none =>
  -- If we have a matching PR, verify the SHAs match, then that it was merged
  let prCheck : Option SafetyCheckResult :=
    match matchingPR with
    | none => none
    | some pr =>
      if branch.sha != pr.head.sha then
        some { safe := false, reason := some "SHA mismatch with PR head" }
      else if effectiveConfig.requireMergedPR && !optStrTruthy pr.merge_commit_sha then
        some { safe := false, reason := some "PR was not merged" }
      else none
  match prCheck with
  | some r => r
  | none =>
    -- Check for unpushed commits (if not allowed)
    if !effectiveConfig.allowUnpushedCommits then
      match branchStatus branch.name with
      | some status =>
        if status.ahead > 0 then
          { safe := false, reason := some (unpushedReason status.ahead) }
        else { safe := true, reason := none }
      | none => { safe := true, reason := none }
    else { safe := true, reason := none }

/-- Model of the JavaScript `Map<string, PullRequest>`: an association
list with unique keys.  `mapSet` replaces the value of an existing key in
place (JavaScript `Map.prototype.set` keeps the original insertion
position) and appends otherwise. -/
def mapSet : List (String × PullRequest) → String → PullRequest → List (String × PullRequest)
  | [], k, v => [(k, v)]
  | e :: rest, k, v => if e.1 == k then (k, v) :: rest else e :: mapSet rest k v

/-- Model of `Map.prototype.get`. -/
def mapGet (m : List (String × PullRequest)) (k : String) : Option PullRequest :=
  (m.find? (fun e => e.1 == k)).map (fun e => e.2)

/-- `src/utils/branchSafetyChecks.ts`: the element of the array returned
by `filterSafeBranches`. -/
structure BranchAnalysis where
  branch : LocalBranch
  safetyCheck : SafetyCheckResult
  matchingPR : Option PullRequest
  deriving DecidableEq

/-- `src/utils/branchSafetyChecks.ts`: `filterSafeBranches`. -/
def filterSafeBranches (regexTest : String → String → Option Bool)
    (branchStatus : String → Option BranchStatus)
    (branches : List LocalBranch) (currentBranch : String)
    (mergedPRs : List (String × PullRequest)) (config : Option SafetyConfig) :
    List BranchAnalysis :=
  branches.map fun branch =>
    let matchingPR := mapGet mergedPRs branch.name
    { branch := branch
      safetyCheck := isBranchSafeToDelete regexTest branchStatus branch currentBranch matchingPR config
      matchingPR := matchingPR }

/-- `src/commands/PrunePullRequests.ts`: `PruneLocalBranches.getMergedPRsMap`:
stream the closed pull requests in order and `Map.set` every one that has
a (truthy) merge commit SHA under its head ref. -/
def getMergedPRsMap (prs : List PullRequest) : List (String × PullRequest) :=
  prs.foldl
    (fun m pr => if optStrTruthy pr.merge_commit_sha then mapSet m pr.head.ref pr else m)
    []

/-- Modelled from the spec: the implementation file
`src/utils/ownerAndRepoMatch.ts` is absent from the sources; only its unit
tests and its caller remain.  Spec (§4.3, remote mode): skip a PR unless
"its head and base repository identities match (same owner+repo, i.e. not
a cross-fork contribution)".  The tests pin: a `null` repo on either side
never matches, the comparison of `owner.login` and `name` is exact and
case-sensitive, and the `fork` flag is ignored. -/
def ownerAndRepoMatch (a b : PullRequestReference) : Bool :=
  match a.repo, b.repo with
  | some ra, some rb => ra.owner.login == rb.owner.login && ra.name == rb.name
  | _, _ => false

/-- The raw outcome of the GitHub get-ref call made by
`OctokitPlus.getReference` in `src/OctokitPlus.ts`, after the `.catch`
handler has converted an HTTP 404 into `undefined`: either the converted
404, or a response whose `data` is an array of sibling refs (GitHub's
answer when the exact ref is gone but is a prefix of other refs), or a
response holding the single exact `Reference`. -/
inductive RefLookupRaw where
  | notFound404
  | siblingList
  | found (r : Reference)
  deriving DecidableEq

/-- `src/OctokitPlus.ts`: `OctokitPlus.getReference`.  Throws `"No repo!"`
when the PR reference carries no repository; returns `undefined` (`none`)
for a converted 404 and for an array-of-siblings response; otherwise the
exact reference. -/
def getReference (lookup : PullRequestReference → RefLookupRaw)
    (prRef : PullRequestReference) : Except String (Option Reference) :=
  match prRef.repo with
  | none => .error "No repo!"
  | some _ =>
    match lookup prRef with
    | .found r => .ok (some r)
    | .notFound404 => .ok none
    | .siblingList => .ok none

/-- The exact-ref view of a raw lookup outcome: `some` only when the
lookup found the single exact ref. -/
def refLookupExact (lookup : PullRequestReference → RefLookupRaw)
    (prRef : PullRequestReference) : Option Reference :=
  match lookup prRef with
  | .found r => some r
  | _ => none

/-- `src/commands/PrunePullRequests.ts`: the element of the array built by
`PrunePullRequest.collectDeletableBranches`. -/
structure BranchToDelete where
  ref : String
  pr : PullRequest
  deriving DecidableEq

/-- `src/commands/PrunePullRequests.ts`:
`PrunePullRequest.collectDeletableBranches`.  Streaming over the closed
PRs in order: skip a PR without a (truthy) merge commit SHA or whose head
and base repositories differ; look up the live ref (a `none` result is a
silent skip); skip when the live SHA differs from the PR's recorded head
SHA; otherwise record `heads/<ref>` with its PR. -/
def collectDeletableBranches (lookup : PullRequestReference → RefLookupRaw) :
    List PullRequest → Except String (List BranchToDelete)
  | [] => .ok []
  | pr :: rest =>
    if !optStrTruthy pr.merge_commit_sha || !ownerAndRepoMatch pr.head pr.base then
      collectDeletableBranches lookup rest
    else
      match getReference lookup pr.head with
      | .error e => .error e
      | .ok none => collectDeletableBranches lookup rest
      | .ok (some ref) =>
        if ref.object.sha != pr.head.sha then
          collectDeletableBranches lookup rest
        else
          match collectDeletableBranches lookup rest with
          | .error e => .error e
          | .ok tail => .ok ({ ref := "heads/" ++ pr.head.ref, pr := pr } :: tail)

/-- The four-way eligibility condition of the remote collector, spelled as
the specification lists it: a merge commit SHA is present; head and base
repository identities match; the live lookup finds the exact ref; and the
live ref's SHA equals the PR's recorded head SHA. -/
def remoteDeletionCondition (lookup : PullRequestReference → RefLookupRaw)
    (pr : PullRequest) : Bool :=
  optStrTruthy pr.merge_commit_sha
    && ownerAndRepoMatch pr.head pr.base
    && (refLookupExact lookup pr.head).isSome
    && (refLookupExact lookup pr.head).any (fun r => r.object.sha == pr.head.sha)

/-- The deletion-candidate list, phrased as a filter of the PR stream by
`remoteDeletionCondition`. -/
def remoteCandidates (lookup : PullRequestReference → RefLookupRaw)
    (prs : List PullRequest) : List BranchToDelete :=
  (prs.filter (remoteDeletionCondition lookup)).map
    (fun pr => { ref := "heads/" ++ pr.head.ref, pr := pr })

/-- Observable outcome of one run of `PrunePullRequest.perform` in
`src/commands/PrunePullRequests.ts`: the arguments of every
`octokitPlus.deleteReference` call actually issued, and the two counters
of the summary. -/
structure RemoteRunResult where
  deletions : List PullRequestReference
  deletedCount : Nat
  errorCount : Nat
  deriving DecidableEq

/-- `src/commands/PrunePullRequests.ts`: `PrunePullRequest.perform`.
`deleteOk` models whether a `deleteReference` call succeeds; `selected`
is the value list returned by the interactive checkbox (only consulted
when neither `force` nor `dryRun` is set; an empty selection returns
early).  In dry-run mode the loop logs instead of deleting, and
`deletedCount` is incremented unconditionally. -/
def remotePerform (lookup : PullRequestReference → RefLookupRaw)
    (deleteOk : PullRequest → Bool) (prs : List PullRequest)
    (dryRun force : Bool) (selected : List String) :
    Except String RemoteRunResult :=
  match collectDeletableBranches lookup prs with
  | .error e => .error e
  | .ok branchesToDelete =>
    if branchesToDelete.length = 0 then
      .ok { deletions := [], deletedCount := 0, errorCount := 0 }
    else
      let chosen : Option (List BranchToDelete) :=
        if !force && !dryRun then
          if selected.length = 0 then none
          else some (branchesToDelete.filter (fun b => selected.contains b.ref))
        else some branchesToDelete
      match chosen with
      | none => .ok { deletions := [], deletedCount := 0, errorCount := 0 }
      | some sel =>
        .ok { deletions := if dryRun then [] else sel.map (fun b => b.pr.head)
              deletedCount :=
                if dryRun then sel.length
                else (sel.filter (fun b => deleteOk b.pr)).length
              errorCount :=
                if dryRun then 0
                else (sel.filter (fun b => !deleteOk b.pr)).length }

/-- Observable outcome of one run of `PruneLocalBranches.perform` in
`src/commands/PrunePullRequests.ts`: the unsafe branches reported (name
and reason, as handed to `verboseOutput`), the arguments of every
`deleteLocalBranch` call actually issued, and the two counters of the
summary. -/
structure LocalRunResult where
  reportedUnsafe : List (String × Option String)
  deletions : List String
  deletedCount : Nat
  errorCount : Nat
  deriving DecidableEq

/-- `src/commands/PrunePullRequests.ts`: `PruneLocalBranches.perform`
(the `promptWithCancel` revision).  `deleteOk` models whether a
`deleteLocalBranch` call succeeds; `selection` models the prompt result
(`none` = cancelled, `some names` = the checked branch names), consulted
only when neither `force` nor `dryRun` is set.  The safety filter is
called without a configuration, as in the source. -/
def localPerform (regexTest : String → String → Option Bool)
    (branchStatus : String → Option BranchStatus) (deleteOk : String → Bool)
    (branches : List LocalBranch) (currentBranch : String)
    (prs : List PullRequest) (dryRun force : Bool)
    (selection : Option (List String)) : LocalRunResult :=
  if branches.length = 0 then
    { reportedUnsafe := [], deletions := [], deletedCount := 0, errorCount := 0 }
  else
    let mergedPRs := getMergedPRsMap prs
    let branchAnalysis := filterSafeBranches regexTest branchStatus branches currentBranch mergedPRs none
    let safeBranches := branchAnalysis.filter (fun a => a.safetyCheck.safe)
    let unsafeBranches := branchAnalysis.filter (fun a => !a.safetyCheck.safe)
    let reported := unsafeBranches.map (fun a => (a.branch.name, a.safetyCheck.reason))
    if safeBranches.length = 0 then
      { reportedUnsafe := reported, deletions := [], deletedCount := 0, errorCount := 0 }
    else
      let chosen : Option (List BranchAnalysis) :=
        if !force && !dryRun then
          match selection with
          | none => none
          | some sel =>
            if sel.length = 0 then none
            else some (safeBranches.filter (fun a => sel.contains a.branch.name))
        else some safeBranches
      match chosen with
      | none =>
        { reportedUnsafe := reported, deletions := [], deletedCount := 0, errorCount := 0 }
      | some branchesToDelete =>
        { reportedUnsafe := reported
          deletions := if dryRun then [] else branchesToDelete.map (fun a => a.branch.name)
          deletedCount :=
            if dryRun then branchesToDelete.length
            else (branchesToDelete.filter (fun a => deleteOk a.branch.name)).length
          errorCount :=
            if dryRun then 0
            else (branchesToDelete.filter (fun a => !deleteOk a.branch.name)).length }

/-- The unsafe report of one local run, as a function of the inputs (used
to state dry-run properties). -/
def localUnsafeReported (regexTest : String → String → Option Bool)
    (branchStatus : String → Option BranchStatus)
    (branches : List LocalBranch) (currentBranch : String)
    (prs : List PullRequest) : List (String × Option String) :=
  ((filterSafeBranches regexTest branchStatus branches currentBranch (getMergedPRsMap prs) none).filter
    (fun a => !a.safetyCheck.safe)).map (fun a => (a.branch.name, a.safetyCheck.reason))

/-- The number of safe candidates of one local run, as a function of the
inputs. -/
def localSafeCount (regexTest : String → String → Option Bool)
    (branchStatus : String → Option BranchStatus)
    (branches : List LocalBranch) (currentBranch : String)
    (prs : List PullRequest) : Nat :=
  ((filterSafeBranches regexTest branchStatus branches currentBranch (getMergedPRsMap prs) none).filter
    (fun a => a.safetyCheck.safe)).length

/-- Outcome of one phase of the combined command: the phase's handler
either resolved or threw an `Error` with a message. -/
inductive PhaseOutcome where
  | success
  | failure (msg : String)
  deriving DecidableEq

/-- `true` when a phase outcome is a successful resolution. -/
def phaseSucceeded : PhaseOutcome → Bool
  | .success => true
  | .failure _ => false

/-- Observable outcome of one run of the `all` command handler. -/
structure PruneAllRun where
  phasesAttempted : List String
  remoteSuccess : Bool
  localSuccess : Bool
  exitCode : Nat
  partialWarning : Bool
  deriving DecidableEq

/-- `src/commands/PruneAll.ts`: `pruneAllCommand.handler`.  Phase 1 runs
the remote command in a `try`/`catch` that records failure without
rethrowing; phase 2 then runs the local command unconditionally in its
own `try`/`catch`; finally `process.exit(1)` if both failed, a
partial-success warning and `process.exit(0)` if exactly one failed, and
a success message (implicit exit code 0) otherwise. -/
def pruneAllHandler (remoteOutcome localOutcome : PhaseOutcome) : PruneAllRun :=
  let remoteSuccess := phaseSucceeded remoteOutcome
  let localSuccess := phaseSucceeded localOutcome
  if !remoteSuccess && !localSuccess then
    { phasesAttempted := ["remote", "local"], remoteSuccess := remoteSuccess
      localSuccess := localSuccess, exitCode := 1, partialWarning := false }
  else if !remoteSuccess || !localSuccess then
    { phasesAttempted := ["remote", "local"], remoteSuccess := remoteSuccess
      localSuccess := localSuccess, exitCode := 0, partialWarning := true }
  else
    { phasesAttempted := ["remote", "local"], remoteSuccess := remoteSuccess
      localSuccess := localSuccess, exitCode := 0, partialWarning := false }

/-- Modelled from the spec: the placeholder token of the protected-branch
configuration.  The module implementing placeholder expansion is absent
from the sources; only its unit tests remain, which pin the token's value
to `$GHOULS_DEFAULT`. -/
def GHOULS_DEFAULT_PLACEHOLDER : String := "$GHOULS_DEFAULT"

/-- Modelled from the spec: the built-in default protected list of the
placeholder revision of `src/types/config.ts` (absent from the sources;
its unit tests pin these ten entries — seven exact names and the three
release/hotfix glob patterns). -/
def DEFAULT_PROTECTED_BRANCHES_FULL : List String :=
  ["main", "master", "develop", "dev", "staging", "production", "prod",
   "release/*", "release-*", "hotfix/*"]

/-- Append an entry to the accumulated result unless it is already
present (dedup-on-insert, first-seen position preserved). -/
def appendUnique (acc : List String) (s : String) : List String :=
  if s ∈ acc then acc else acc ++ [s]

/-- Modelled from the spec: `expandDefaultPlaceholder` of the placeholder
revision of `src/types/config.ts` (implementation absent from the sources;
only its unit tests remain).  Spec §4.1: "scanning the raw list left to
right, each occurrence of the placeholder token is replaced by the
built-in defaults at that position, skipping any default entry already
present earlier in the result (dedup-on-insert, preserve first-seen
position). Multiple placeholder occurrences collapse to a single
expansion", and the effective list never contains duplicate entries
(§3 invariant; the unit test "should remove duplicates while preserving
order" pins that an explicit entry repeating an earlier one is dropped
as well). -/
def expandDefaultPlaceholder (branches : List String) : List String :=
  branches.foldl
    (fun acc b =>
      if b == GHOULS_DEFAULT_PLACEHOLDER then
        DEFAULT_PROTECTED_BRANCHES_FULL.foldl appendUnique acc
      else appendUnique acc b)
    []

/-- A concrete regular-expression oracle used by witnesses: for a pattern
with no regex metacharacters, `new RegExp(pattern, "i").test(s)` is
case-insensitive substring containment, computed here over character
lists. -/
def charListHas : List Char → List Char → Bool
  | [], needle => needle.isEmpty
  | c :: rest, needle => needle.isPrefixOf (c :: rest) || charListHas rest needle

/-- Concrete oracle for `new RegExp(pattern, "i").test(s)` on
metacharacter-free patterns: case-insensitive substring test. -/
def plainRegexTest (pattern s : String) : Option Bool :=
  some (charListHas (strToLower s).data (strToLower pattern).data)

/-- The built-in release/hotfix naming conventions of the specification:
`release/...`, `release-...`, `hotfix/...`. -/
def matchesReleaseHotfixConvention (name : String) : Bool :=
  "release/".data.isPrefixOf name.data
    || "release-".data.isPrefixOf name.data
    || "hotfix/".data.isPrefixOf name.data

/-- The five fixed strings of the safety evaluator's reason taxonomy
(spec §7); the sixth family is `unpushedReason`. -/
def fixedReasonTaxonomy : List String :=
  ["current branch", "protected branch", "release/hotfix branch",
   "SHA mismatch with PR head", "PR was not merged"]

/-- Membership in the reason taxonomy of spec §7: one of the five fixed
strings, or `N unpushed commit(s)` for a positive `N`. -/
def inReasonTaxonomy (r : String) : Prop :=
  r ∈ fixedReasonTaxonomy ∨ ∃ n : Nat, 0 < n ∧ r = unpushedReason n

/-- Regular-expression oracle that never matches (a configuration with no
patterns behaves identically for any oracle). -/
def regexNever : String → String → Option Bool := fun _ _ => some false

/-- Branch-status oracle reporting a clean branch (no unpushed commits). -/
def statusClean : String → Option BranchStatus := fun _ => some ⟨0, 0⟩

/-- A merged pull request from head ref `feature-x` at SHA `sha1`
(concrete input for witnesses). -/
def prFirst : PullRequest :=
  { id := 1, number := 1, state := "closed",
    head := ⟨"u:feature-x", "feature-x", "sha1", some ⟨⟨"u"⟩, "r", false⟩⟩,
    base := ⟨"u:main", "main", "basesha", some ⟨⟨"u"⟩, "r", false⟩⟩,
    merge_commit_sha := some "merge1" }

/-- A second merged pull request with the same head ref `feature-x` but a
different id, number and head SHA (concrete input for witnesses). -/
def prSecond : PullRequest :=
  { id := 2, number := 2, state := "closed",
    head := ⟨"u:feature-x", "feature-x", "sha2", some ⟨⟨"u"⟩, "r", false⟩⟩,
    base := ⟨"u:main", "main", "basesha", some ⟨⟨"u"⟩, "r", false⟩⟩,
    merge_commit_sha := some "merge2" }

/-- A merged pull request whose head ref is `main` at SHA `sha1`
(concrete input for the current-branch witness). -/
def prOnMain : PullRequest :=
  { id := 3, number := 3, state := "closed",
    head := ⟨"u:main", "main", "sha1", some ⟨⟨"u"⟩, "r", false⟩⟩,
    base := ⟨"u:develop", "develop", "basesha", some ⟨⟨"u"⟩, "r", false⟩⟩,
    merge_commit_sha := some "merge3" }

/-- The merged-PR predicate keyed to a head ref. -/
def mergedWithRef (q : String) (pr : PullRequest) : Bool :=
  optStrTruthy pr.merge_commit_sha && pr.head.ref == q

/-! ### Helper lemmas -/

lemma mapGet_nil (q : String) : mapGet [] q = none := rfl

lemma mapGet_cons (e : String × PullRequest) (l : List (String × PullRequest)) (q : String) :
    mapGet (e :: l) q = if e.1 == q then some e.2 else mapGet l q := by
  cases h : (e.1 == q) <;> simp [mapGet, List.find?_cons, h]

lemma mapGet_mapSet (m : List (String × PullRequest)) (k : String) (v : PullRequest)
    (q : String) : mapGet (mapSet m k v) q = if k == q then some v else mapGet m q := by
  induction m with
  | nil =>
    cases h : (k == q) <;> simp [mapSet, mapGet_cons, mapGet_nil, h]
  | cons e rest ih =>
    by_cases h : (e.1 == k) = true
    · have hek : e.1 = k := by simpa [beq_iff_eq] using h
      cases hq : (k == q)
      · have hq' : (e.1 == q) = false := by rw [hek]; exact hq
        simp [mapSet, h, mapGet_cons, hq, hq']
      · simp [mapSet, h, mapGet_cons, hq]
    · have h' : (e.1 == k) = false := by simpa using h
      have hne : e.1 ≠ k := by simpa [beq_iff_eq] using h
      cases hq : (k == q)
      · simp only [mapSet, h', Bool.false_eq_true, if_false, mapGet_cons, ih, hq]
      · have hkq : k = q := by simpa [beq_iff_eq] using hq
        have hq' : (e.1 == q) = false := by
          rw [← hkq]; simpa [beq_iff_eq] using hne
        simp [mapSet, h', mapGet_cons, hq, hq', ih]

lemma find?_eq_head?_filter {α : Type} (p : α → Bool) (l : List α) :
    l.find? p = (l.filter p).head? := by
  induction l with
  | nil => rfl
  | cons x xs ih =>
    cases h : p x
    · rw [List.find?_cons_of_neg _ (by simp [h]), List.filter_cons_of_neg (by simp [h])]
      exact ih
    · rw [List.find?_cons_of_pos _ h, List.filter_cons_of_pos (by simp [h])]
      rfl

lemma getMergedPRsMap_foldl_lookup (prs : List PullRequest)
    (m : List (String × PullRequest)) (q : String) :
    mapGet (prs.foldl
      (fun m pr => if optStrTruthy pr.merge_commit_sha then mapSet m pr.head.ref pr else m) m) q
      = match prs.reverse.find? (mergedWithRef q) with
        | some pr => some pr
        | none => mapGet m q := by
  induction prs generalizing m with
  | nil => simp
  | cons pr rest ih =>
    rw [List.foldl_cons, ih]
    have happ : (pr :: rest).reverse = rest.reverse ++ [pr] := by simp
    rw [happ, List.find?_append]
    cases hr : rest.reverse.find? (mergedWithRef q)
    · cases hm : optStrTruthy pr.merge_commit_sha
      · have : mergedWithRef q pr = false := by simp [mergedWithRef, hm]
        simp [hm, List.find?, this]
      · cases hq : (pr.head.ref == q)
        · have : mergedWithRef q pr = false := by simp [mergedWithRef, hm, hq]
          simp [hm, List.find?, this, mapGet_mapSet, hq]
        · have : mergedWithRef q pr = true := by simp [mergedWithRef, hm, hq]
          simp [hm, List.find?, this, mapGet_mapSet, hq]
    · simp [hr]

lemma getMergedPRsMap_lookup (prs : List PullRequest) (q : String) :
    mapGet (getMergedPRsMap prs) q = (prs.filter (mergedWithRef q)).getLast? := by
  rw [getMergedPRsMap, getMergedPRsMap_foldl_lookup, ← List.head?_reverse,
    ← List.filter_reverse, ← find?_eq_head?_filter]
  cases hr : prs.reverse.find? (mergedWithRef q) <;> simp [mapGet_nil]

/-! ### Claim theorems -/

/-- C3: for every branch with `isCurrent` true, or whose name equals the
current branch name, `isBranchSafeToDelete` returns unsafe with reason
"current branch", regardless of every other input (matching PR, SHA
agreement, and any protected-branch configuration). -/
theorem currentBranchGuardFirst (regexTest : String → String → Option Bool)
    (branchStatus : String → Option BranchStatus) (branch : LocalBranch)
    (currentBranch : String) (matchingPR : Option PullRequest)
    (config : Option SafetyConfig)
    (h : branch.isCurrent = true ∨ branch.name = currentBranch) :
    isBranchSafeToDelete regexTest branchStatus branch currentBranch matchingPR config
      = { safe := false, reason := some "current branch" } := by
  have hb : (branch.isCurrent || branch.name == currentBranch) = true := by
    rcases h with h | h <;> simp [h]
  simp [isBranchSafeToDelete, hb]

/-- Witness for C3: the checked-out branch `main` with a fully merged,
SHA-identical pull request is still rejected as "current branch". -/
theorem currentBranchGuardFirst_witness :
    ((⟨"main", "sha1", true⟩ : LocalBranch).isCurrent = true ∨ "main" = "develop")
    ∧ isBranchSafeToDelete plainRegexTest statusClean ⟨"main", "sha1", true⟩ "develop"
        (some prOnMain) none
      = { safe := false, reason := some "current branch" } :=
  ⟨Or.inl rfl,
    currentBranchGuardFirst plainRegexTest statusClean ⟨"main", "sha1", true⟩ "develop"
      (some prOnMain) none (Or.inl rfl)⟩

/-- C4 counterexample: two merged pull requests sharing the head ref
`feature-x` are streamed in order `prFirst, prSecond`; the head-ref map
records `prSecond`, the later one — not the first encountered, as the
claim states. -/
theorem mergedPRsMapFirstDoesNotWin :
    mapGet (getMergedPRsMap [prFirst, prSecond]) "feature-x" ≠ some prFirst
    ∧ mapGet (getMergedPRsMap [prFirst, prSecond]) "feature-x" = some prSecond
    ∧ optStrTruthy prFirst.merge_commit_sha = true
    ∧ optStrTruthy prSecond.merge_commit_sha = true
    ∧ prFirst.head.ref = prSecond.head.ref := by
  refine ⟨?_, ?_, rfl, rfl, rfl⟩ <;> decide

/-- C4 (amended): when the local-mode reconciler `getMergedPRsMap`
consumes a PR stream in which multiple merged PRs share the same head
ref, the last such PR encountered in stream order is the one recorded in
the head-ref-keyed mapping; earlier duplicates are overwritten
(`Map.prototype.set` replaces the value of an existing key). -/
theorem mergedPRsMapLastWins (prs : List PullRequest) (ref : String) :
    mapGet (getMergedPRsMap prs) ref = (prs.filter (mergedWithRef ref)).getLast? :=
  getMergedPRsMap_lookup prs ref

/-- C9: in combined mode the local phase is always attempted after the
remote phase regardless of the remote phase's outcome, and the exit code
is non-zero exactly when both phases failed; a partial success exits with
code 0 and a warning. -/
theorem pruneAllPhaseSemantics (r l : PhaseOutcome) (m m' : String) :
    (pruneAllHandler r l).phasesAttempted = ["remote", "local"]
    ∧ (pruneAllHandler r l).exitCode
        = (if !phaseSucceeded r && !phaseSucceeded l then 1 else 0)
    ∧ (pruneAllHandler (.failure m) (.failure m')).exitCode = 1
    ∧ (pruneAllHandler .success (.failure m)).exitCode = 0
    ∧ (pruneAllHandler .success (.failure m)).partialWarning = true
    ∧ (pruneAllHandler (.failure m) .success).exitCode = 0
    ∧ (pruneAllHandler (.failure m) .success).partialWarning = true
    ∧ (pruneAllHandler .success .success).exitCode = 0
    ∧ (pruneAllHandler .success .success).partialWarning = false := by
  cases r <;> cases l <;> simp [pruneAllHandler, phaseSucceeded]

/-- C10: `filterSafeBranches` returns exactly one entry per input branch,
in input order; the `i`-th entry pairs the `i`-th branch with the pull
request retrieved from the map under that branch's name and with the
verdict `isBranchSafeToDelete` produces for exactly those inputs. -/
theorem filterSafeBranchesPointwise (regexTest : String → String → Option Bool)
    (branchStatus : String → Option BranchStatus) (branches : List LocalBranch)
    (currentBranch : String) (mergedPRs : List (String × PullRequest))
    (config : Option SafetyConfig) :
    (filterSafeBranches regexTest branchStatus branches currentBranch mergedPRs config).length
      = branches.length
    ∧ ∀ i : Nat,
        (filterSafeBranches regexTest branchStatus branches currentBranch mergedPRs config)[i]?
          = (branches[i]?).map (fun b =>
              { branch := b
                safetyCheck := isBranchSafeToDelete regexTest branchStatus b currentBranch
                  (mapGet mergedPRs b.name) config
                matchingPR := mapGet mergedPRs b.name }) := by
  constructor
  · simp [filterSafeBranches]
  · intro i
    simp [filterSafeBranches, List.getElem?_map]

lemma mem_appendUnique (acc : List String) (s x : String) :
    x ∈ appendUnique acc s ↔ x ∈ acc ∨ x = s := by
  by_cases h : s ∈ acc
  · simp only [appendUnique, if_pos h]
    exact ⟨Or.inl, fun h' => h'.elim id (fun he => he ▸ h)⟩
  · simp [appendUnique, if_neg h]

lemma nodup_appendUnique (acc : List String) (s : String) (h : acc.Nodup) :
    (appendUnique acc s).Nodup := by
  by_cases hs : s ∈ acc
  · simpa [appendUnique, hs] using h
  · simp [appendUnique, hs, List.nodup_append, h]

lemma mem_foldl_appendUnique (ds : List String) :
    ∀ (acc : List String) (x : String),
      x ∈ ds.foldl appendUnique acc ↔ x ∈ acc ∨ x ∈ ds := by
  induction ds with
  | nil => intro acc x; simp
  | cons d rest ih =>
    intro acc x
    rw [List.foldl_cons, ih, mem_appendUnique]
    simp only [List.mem_cons]
    tauto

lemma nodup_foldl_appendUnique (ds : List String) :
    ∀ (acc : List String), acc.Nodup → (ds.foldl appendUnique acc).Nodup := by
  induction ds with
  | nil => intro acc h; simpa using h
  | cons d rest ih =>
    intro acc h
    exact ih _ (nodup_appendUnique acc d h)

lemma expandDefaultPlaceholder_foldl_nodup (l : List String) :
    ∀ (acc : List String), acc.Nodup →
      (l.foldl (fun acc b =>
        if b == GHOULS_DEFAULT_PLACEHOLDER then
          DEFAULT_PROTECTED_BRANCHES_FULL.foldl appendUnique acc
        else appendUnique acc b) acc).Nodup := by
  induction l with
  | nil => intro acc h; simpa using h
  | cons b rest ih =>
    intro acc h
    rw [List.foldl_cons]
    cases hb : (b == GHOULS_DEFAULT_PLACEHOLDER)
    · rw [if_neg (by simp [hb])]
      exact ih _ (nodup_appendUnique acc b h)
    · rw [if_pos (by simp [hb])]
      exact ih _ (nodup_foldl_appendUnique _ acc h)

lemma expandDefaultPlaceholder_foldl_no_placeholder (l : List String) :
    ∀ (acc : List String), GHOULS_DEFAULT_PLACEHOLDER ∉ acc →
      GHOULS_DEFAULT_PLACEHOLDER ∉ (l.foldl (fun acc b =>
        if b == GHOULS_DEFAULT_PLACEHOLDER then
          DEFAULT_PROTECTED_BRANCHES_FULL.foldl appendUnique acc
        else appendUnique acc b) acc) := by
  induction l with
  | nil => intro acc h; simpa using h
  | cons b rest ih =>
    intro acc h
    rw [List.foldl_cons]
    cases hb : (b == GHOULS_DEFAULT_PLACEHOLDER)
    · rw [if_neg (by simp [hb])]
      refine ih _ ?_
      rw [mem_appendUnique]
      rintro (hc | hc)
      · exact h hc
      · have hbne : b ≠ GHOULS_DEFAULT_PLACEHOLDER := by
          simpa [beq_eq_false_iff_ne] using hb
        exact hbne hc.symm
    · rw [if_pos (by simp [hb])]
      refine ih _ ?_
      rw [mem_foldl_appendUnique]
      rintro (hc | hc)
      · exact h hc
      · revert hc; decide

lemma expandDefaultPlaceholder_foldl_id (l : List String) :
    ∀ (acc : List String), (∀ b ∈ l, b ≠ GHOULS_DEFAULT_PLACEHOLDER) →
      (acc ++ l).Nodup →
      (l.foldl (fun acc b =>
        if b == GHOULS_DEFAULT_PLACEHOLDER then
          DEFAULT_PROTECTED_BRANCHES_FULL.foldl appendUnique acc
        else appendUnique acc b) acc) = acc ++ l := by
  induction l with
  | nil => intro acc _ _; simp
  | cons b rest ih =>
    intro acc hl hnd
    have hb : (b == GHOULS_DEFAULT_PLACEHOLDER) = false := by
      simpa [beq_iff_eq] using hl b (by simp)
    have hbacc : b ∉ acc := by
      intro hmem
      have := (List.nodup_append.mp hnd).2.2
      exact this hmem (by simp)
    rw [List.foldl_cons, hb]
    simp only [Bool.false_eq_true, if_false]
    rw [appendUnique, if_neg hbacc]
    have h1 : ∀ x ∈ rest, x ≠ GHOULS_DEFAULT_PLACEHOLDER := fun x hx => hl x (by simp [hx])
    have h2 : ((acc ++ [b]) ++ rest).Nodup := by simpa using hnd
    rw [ih (acc ++ [b]) h1 h2]
    simp

/-- C8 counterexample: the expansion is globally deduplicating, so a
placeholder-free list that itself contains a duplicate is NOT returned
unchanged, contradicting the claim's unqualified "returned unchanged". -/
theorem expandNotIdentityOnDuplicates :
    GHOULS_DEFAULT_PLACEHOLDER ∉ (["x", "x"] : List String)
    ∧ expandDefaultPlaceholder ["x", "x"] ≠ ["x", "x"]
    ∧ expandDefaultPlaceholder ["x", "x"] = ["x"] := by
  refine ⟨?_, ?_, ?_⟩ <;> decide

/-- C8 (amended): placeholder expansion of the configured protected list
is idempotent and deduplicating: a duplicate-free list containing no
placeholder token is returned unchanged; `[placeholder, "x", placeholder]`
expands to the built-in defaults exactly once followed by `"x"`; the
resulting list never contains duplicate entries (first-seen positions
preserved by the dedup-on-insert scan); and re-expanding an expanded list
changes nothing. -/
theorem expandDefaultPlaceholderProperties :
    (∀ l : List String, GHOULS_DEFAULT_PLACEHOLDER ∉ l → l.Nodup →
      expandDefaultPlaceholder l = l)
    ∧ expandDefaultPlaceholder [GHOULS_DEFAULT_PLACEHOLDER, "x", GHOULS_DEFAULT_PLACEHOLDER]
        = DEFAULT_PROTECTED_BRANCHES_FULL ++ ["x"]
    ∧ (∀ l : List String, (expandDefaultPlaceholder l).Nodup)
    ∧ (∀ l : List String,
        expandDefaultPlaceholder (expandDefaultPlaceholder l) = expandDefaultPlaceholder l) := by
  have hid : ∀ l : List String, GHOULS_DEFAULT_PLACEHOLDER ∉ l → l.Nodup →
      expandDefaultPlaceholder l = l := by
    intro l hph hnd
    have := expandDefaultPlaceholder_foldl_id l []
      (fun b hb => fun he => hph (he ▸ hb)) (by simpa using hnd)
    simpa [expandDefaultPlaceholder] using this
  have hnodup : ∀ l : List String, (expandDefaultPlaceholder l).Nodup := by
    intro l
    exact expandDefaultPlaceholder_foldl_nodup l [] (by simp)
  have hnoph : ∀ l : List String,
      GHOULS_DEFAULT_PLACEHOLDER ∉ expandDefaultPlaceholder l := by
    intro l
    exact expandDefaultPlaceholder_foldl_no_placeholder l [] (by simp)
  refine ⟨hid, by decide, hnodup, ?_⟩
  intro l
  exact hid _ (hnoph l) (hnodup l)

/-- Witness for C8: a concrete duplicate-free, placeholder-free list is
returned unchanged by the expansion. -/
theorem expandDefaultPlaceholderProperties_witness :
    GHOULS_DEFAULT_PLACEHOLDER ∉ (["alpha", "beta"] : List String)
    ∧ (["alpha", "beta"] : List String).Nodup
    ∧ expandDefaultPlaceholder ["alpha", "beta"] = ["alpha", "beta"] :=
  ⟨by decide, by decide,
    expandDefaultPlaceholderProperties.1 ["alpha", "beta"] (by decide) (by decide)⟩

lemma getEffectiveSafetyConfig_none :
    getEffectiveSafetyConfig none = DEFAULT_SAFETY_CONFIG := rfl

lemma getEffectiveSafetyConfig_customList (l : List String) :
    getEffectiveSafetyConfig (some ⟨some l, none, none, none, none⟩)
      = ⟨l, [], false, true, []⟩ := rfl

/-- C1 counterexample: the branch `release/1.0` matches the built-in
release convention, the configured protected list is the non-empty custom
list `["custom-only"]` that does not cover it, and the evaluator returns
SAFE — the claim demands an unsafe verdict. -/
theorem releaseBranchSafeUnderCustomList :
    matchesReleaseHotfixConvention "release/1.0" = true
    ∧ (["custom-only"] : List String) ≠ []
    ∧ ((["custom-only"].map strToLower).contains (strToLower "release/1.0")) = false
    ∧ isBranchSafeToDelete regexNever statusClean ⟨"release/1.0", "abc", false⟩ "main" none
        (some ⟨some ["custom-only"], none, none, none, none⟩)
      = { safe := true, reason := none } :=
  ⟨by decide, by decide, by decide, by decide⟩

/-- C1 (amended): the shipped evaluator implements no built-in
release/hotfix convention.  A branch whose name matches the convention,
under a custom protected list (with no pattern or custom-rule entries),
is judged by the generic guards alone: if it is not the current branch,
its name has no case-insensitive exact match in the custom list, any
matching PR agrees on the SHA and was merged, and it has no unpushed
commits, the evaluator returns safe. -/
theorem releaseHotfixConventionNotEnforced
    (regexTest : String → String → Option Bool)
    (branchStatus : String → Option BranchStatus)
    (branch : LocalBranch) (currentBranch : String) (customList : List String)
    (matchingPR : Option PullRequest)
    (hconv : matchesReleaseHotfixConvention branch.name = true)
    (hcur : branch.isCurrent = false) (hname : branch.name ≠ currentBranch)
    (hnonempty : customList ≠ [])
    (hprot : ((customList.map strToLower).contains (strToLower branch.name)) = false)
    (hpr : ∀ pr : PullRequest, matchingPR = some pr →
      branch.sha = pr.head.sha ∧ optStrTruthy pr.merge_commit_sha = true)
    (hstatus : ∀ st : BranchStatus, branchStatus branch.name = some st → st.ahead = 0) :
    isBranchSafeToDelete regexTest branchStatus branch currentBranch matchingPR
      (some ⟨some customList, none, none, none, none⟩)
      = { safe := true, reason := none } := by
  simp only [isBranchSafeToDelete, getEffectiveSafetyConfig_customList]
  rw [if_neg (by simp [hcur, hname])]
  rw [if_neg (show ¬((customList.map strToLower).contains (strToLower branch.name)) = true by
    rw [hprot]; simp)]
  simp only [List.find?_nil]
  cases matchingPR with
  | none =>
    cases hbs : branchStatus branch.name with
    | none => simp [hbs]
    | some st =>
      have hz := hstatus st hbs
      simp [hbs, hz]
  | some pr =>
    obtain ⟨hsha, hmerge⟩ := hpr pr rfl
    have h1 : (branch.sha != pr.head.sha) = false := by simp [bne, hsha]
    cases hbs : branchStatus branch.name with
    | none => simp [hbs, h1, hmerge]
    | some st =>
      have hz := hstatus st hbs
      simp [hbs, h1, hmerge, hz]

/-- Witness for C1's amended theorem: the release-convention branch of
the counterexample, evaluated under the custom list, is safe. -/
theorem releaseHotfixConventionNotEnforced_witness :
    matchesReleaseHotfixConvention "release/1.0" = true
    ∧ (["custom-only"] : List String) ≠ []
    ∧ isBranchSafeToDelete regexNever statusClean ⟨"release/1.0", "abc", false⟩ "main" none
        (some ⟨some ["custom-only"], none, none, none, none⟩)
      = { safe := true, reason := none } :=
  ⟨by decide, by decide,
    releaseHotfixConventionNotEnforced regexNever statusClean
      ⟨"release/1.0", "abc", false⟩ "main" ["custom-only"] none
      (by decide) rfl (by decide) (by decide) (by decide)
      (fun pr h => nomatch h)
      (fun st h => by cases h; rfl)⟩

lemma isBranchSafeToDelete_shape (regexTest : String → String → Option Bool)
    (branchStatus : String → Option BranchStatus) (branch : LocalBranch)
    (currentBranch : String) (matchingPR : Option PullRequest)
    (config : Option SafetyConfig) :
    isBranchSafeToDelete regexTest branchStatus branch currentBranch matchingPR config
        = { safe := true, reason := none }
    ∨ isBranchSafeToDelete regexTest branchStatus branch currentBranch matchingPR config
        = { safe := false, reason := some "current branch" }
    ∨ isBranchSafeToDelete regexTest branchStatus branch currentBranch matchingPR config
        = { safe := false, reason := some "protected branch" }
    ∨ (∃ p ∈ (getEffectiveSafetyConfig config).additionalProtectedPatterns,
        isBranchSafeToDelete regexTest branchStatus branch currentBranch matchingPR config
          = { safe := false, reason := some ("matches protected pattern: " ++ p) })
    ∨ (∃ rule ∈ (getEffectiveSafetyConfig config).customSafetyRules,
        isBranchSafeToDelete regexTest branchStatus branch currentBranch matchingPR config
          = { safe := false, reason := some rule.reason })
    ∨ isBranchSafeToDelete regexTest branchStatus branch currentBranch matchingPR config
        = { safe := false, reason := some "SHA mismatch with PR head" }
    ∨ isBranchSafeToDelete regexTest branchStatus branch currentBranch matchingPR config
        = { safe := false, reason := some "PR was not merged" }
    ∨ (∃ n : Nat, 0 < n ∧
        isBranchSafeToDelete regexTest branchStatus branch currentBranch matchingPR config
          = { safe := false, reason := some (unpushedReason n) }) := by
  simp only [isBranchSafeToDelete]
  split
  · exact Or.inr (Or.inl rfl)
  split
  · exact Or.inr (Or.inr (Or.inl rfl))
  split
  · rename_i pattern hfind
    exact Or.inr (Or.inr (Or.inr (Or.inl
      ⟨pattern, List.mem_of_find?_eq_some hfind, rfl⟩)))
  split
  · rename_i rule hfind
    exact Or.inr (Or.inr (Or.inr (Or.inr (Or.inl
      ⟨rule, List.mem_of_find?_eq_some hfind, rfl⟩))))
  split
  · rename_i r hpr
    cases matchingPR with
    | none => exact absurd hpr (by simp)
    | some pr =>
      simp only [] at hpr
      split at hpr
      · cases hpr
        exact Or.inr (Or.inr (Or.inr (Or.inr (Or.inr (Or.inl rfl)))))
      · split at hpr
        · cases hpr
          exact Or.inr (Or.inr (Or.inr (Or.inr (Or.inr (Or.inr (Or.inl rfl))))))
        · cases hpr
  · split
    · cases hbs : branchStatus branch.name with
      | none => exact Or.inl rfl
      | some status =>
        dsimp only
        split
        · rename_i hpos
          exact Or.inr (Or.inr (Or.inr (Or.inr (Or.inr (Or.inr (Or.inr
            ⟨status.ahead, hpos, rfl⟩))))))
        · exact Or.inl rfl
    · exact Or.inl rfl

/-- C6 (amended): every verdict of the safety evaluator contains a reason
if and only if `safe` is false; and whenever the effective configuration
carries no additional protected patterns and no custom safety rules (in
particular under the default configuration), every reason is drawn from
the fixed taxonomy — "current branch", "protected branch",
"release/hotfix branch", "SHA mismatch with PR head", "PR was not
merged", or "N unpushed commit(s)" with N interpolated and correctly
pluralized.  Configured patterns and custom rules extend the reasons
beyond this taxonomy ("matches protected pattern: P" and the rule's own
reason text). -/
theorem reasonIffUnsafeAndDefaultTaxonomy (regexTest : String → String → Option Bool)
    (branchStatus : String → Option BranchStatus) (branch : LocalBranch)
    (currentBranch : String) (matchingPR : Option PullRequest)
    (config : Option SafetyConfig) :
    ((isBranchSafeToDelete regexTest branchStatus branch currentBranch matchingPR config).reason.isSome
      ↔ (isBranchSafeToDelete regexTest branchStatus branch currentBranch matchingPR config).safe
          = false)
    ∧ ((getEffectiveSafetyConfig config).additionalProtectedPatterns = [] →
       (getEffectiveSafetyConfig config).customSafetyRules = [] →
       ∀ r : String,
         (isBranchSafeToDelete regexTest branchStatus branch currentBranch matchingPR config).reason
            = some r → inReasonTaxonomy r) := by
  rcases isBranchSafeToDelete_shape regexTest branchStatus branch currentBranch matchingPR config
    with h | h | h | ⟨p, hp, h⟩ | ⟨rule, hrule, h⟩ | h | h | ⟨n, hn, h⟩
  · rw [h]; exact ⟨by simp, fun _ _ r hr => by cases hr⟩
  · rw [h]
    exact ⟨by simp, fun _ _ r hr => by
      cases hr; exact Or.inl (by simp [fixedReasonTaxonomy])⟩
  · rw [h]
    exact ⟨by simp, fun _ _ r hr => by
      cases hr; exact Or.inl (by simp [fixedReasonTaxonomy])⟩
  · rw [h]
    refine ⟨by simp, fun hpat _ r hr => ?_⟩
    rw [hpat] at hp
    exact absurd hp (List.not_mem_nil p)
  · rw [h]
    refine ⟨by simp, fun _ hrules r hr => ?_⟩
    rw [hrules] at hrule
    exact absurd hrule (List.not_mem_nil rule)
  · rw [h]
    exact ⟨by simp, fun _ _ r hr => by
      cases hr; exact Or.inl (by simp [fixedReasonTaxonomy])⟩
  · rw [h]
    exact ⟨by simp, fun _ _ r hr => by
      cases hr; exact Or.inl (by simp [fixedReasonTaxonomy])⟩
  · rw [h]
    exact ⟨by simp, fun _ _ r hr => by
      cases hr; exact Or.inr ⟨n, hn, rfl⟩⟩

/-- C6 counterexample: a configured custom safety rule makes the
evaluator return the rule's own reason text — here `"no!"` — which is not
one of the taxonomy's fixed strings and is no `N unpushed commit(s)`
string either (every such string has length at least 17). -/
theorem customRuleReasonOutsideTaxonomy :
    (isBranchSafeToDelete plainRegexTest statusClean ⟨"feature-x", "abc", false⟩ "main" none
        (some ⟨none, none, none, none, some [⟨"r1", "feature", "no!"⟩]⟩)).reason = some "no!"
    ∧ ¬ inReasonTaxonomy "no!" := by
  constructor
  · decide
  · intro hin
    rcases hin with hmem | ⟨n, hn, heq⟩
    · revert hmem; decide
    · have hlen := congrArg String.length heq
      rw [unpushedReason, String.length_append, String.length_append] at hlen
      have h3 : ("no!" : String).length = 3 := rfl
      have h16 : (" unpushed commit" : String).length = 16 := rfl
      rw [h3, h16] at hlen
      omega

/-- Witness for C6's amended theorem: under the default configuration
(no patterns, no custom rules) the reason produced for the checked-out
branch lies in the taxonomy. -/
theorem reasonIffUnsafeAndDefaultTaxonomy_witness :
    (getEffectiveSafetyConfig none).additionalProtectedPatterns = []
    ∧ (getEffectiveSafetyConfig none).customSafetyRules = []
    ∧ inReasonTaxonomy "current branch" :=
  ⟨rfl, rfl,
    (reasonIffUnsafeAndDefaultTaxonomy plainRegexTest statusClean ⟨"main", "s", true⟩ "main"
      none none).2 rfl rfl "current branch" (by decide)⟩

lemma ownerAndRepoMatch_head_repo_isSome (a b : PullRequestReference)
    (h : ownerAndRepoMatch a b = true) : a.repo.isSome := by
  cases ha : a.repo <;> cases hb : b.repo <;> simp [ownerAndRepoMatch, ha, hb] at h ⊢

lemma getReference_of_repo_isSome (lookup : PullRequestReference → RefLookupRaw)
    (prRef : PullRequestReference) (h : prRef.repo.isSome) :
    getReference lookup prRef = .ok (refLookupExact lookup prRef) := by
  cases hr : prRef.repo with
  | none => rw [hr] at h; cases h
  | some repo =>
    cases hl : lookup prRef <;> simp [getReference, refLookupExact, hr, hl]

lemma collectDeletableBranches_eq_remoteCandidates
    (lookup : PullRequestReference → RefLookupRaw) (prs : List PullRequest) :
    collectDeletableBranches lookup prs = .ok (remoteCandidates lookup prs) := by
  induction prs with
  | nil => rfl
  | cons pr rest ih =>
    rw [collectDeletableBranches]
    by_cases h1 : (!optStrTruthy pr.merge_commit_sha || !ownerAndRepoMatch pr.head pr.base) = true
    · rw [if_pos h1, ih]
      have hcond : remoteDeletionCondition lookup pr = false := by
        rcases Bool.or_eq_true _ _ |>.mp h1 with h | h
        · simp only [Bool.not_eq_true'] at h
          simp [remoteDeletionCondition, h]
        · simp only [Bool.not_eq_true'] at h
          simp [remoteDeletionCondition, h]
      rw [show remoteCandidates lookup (pr :: rest) = remoteCandidates lookup rest by
        rw [remoteCandidates, remoteCandidates, List.filter_cons_of_neg (by simp [hcond])]]
    · rw [if_neg h1]
      have h2 : optStrTruthy pr.merge_commit_sha = true ∧ ownerAndRepoMatch pr.head pr.base = true := by
        constructor <;> by_contra hc <;> simp only [Bool.not_eq_true] at hc <;>
          exact h1 (by simp [hc])
      rw [getReference_of_repo_isSome lookup pr.head
        (ownerAndRepoMatch_head_repo_isSome _ _ h2.2)]
      cases hlex : refLookupExact lookup pr.head with
      | none =>
        rw [ih]
        have hcond : remoteDeletionCondition lookup pr = false := by
          simp [remoteDeletionCondition, hlex]
        rw [show remoteCandidates lookup (pr :: rest) = remoteCandidates lookup rest by
          rw [remoteCandidates, remoteCandidates, List.filter_cons_of_neg (by simp [hcond])]]
      | some ref =>
        dsimp only
        by_cases hsha : (ref.object.sha != pr.head.sha) = true
        · rw [if_pos hsha, ih]
          have hcond : remoteDeletionCondition lookup pr = false := by
            simp only [bne_iff_ne, ne_eq] at hsha
            simp [remoteDeletionCondition, hlex, hsha]
          rw [show remoteCandidates lookup (pr :: rest) = remoteCandidates lookup rest by
            rw [remoteCandidates, remoteCandidates, List.filter_cons_of_neg (by simp [hcond])]]
        · rw [if_neg hsha, ih]
          have hshaeq : ref.object.sha = pr.head.sha := by
            simpa [bne_iff_ne] using hsha
          have hcond : remoteDeletionCondition lookup pr = true := by
            simp [remoteDeletionCondition, hlex, h2.1, h2.2, hshaeq]
          rw [show remoteCandidates lookup (pr :: rest)
              = { ref := "heads/" ++ pr.head.ref, pr := pr } :: remoteCandidates lookup rest by
            rw [remoteCandidates, remoteCandidates, List.filter_cons_of_pos (by simp [hcond]),
              List.map_cons]]

/-- C5: in remote mode, a PR's head ref is added to the deletion-candidate
list if and only if the four conditions of `remoteDeletionCondition` all
hold: the PR has a (truthy) merge commit SHA, its head and base
repository identities match, the live lookup finds the exact ref, and the
live ref's SHA equals the PR's recorded head SHA — and a not-found
lookup, including GitHub answering with a list of sibling refs instead of
the exact one, is a silent skip producing no error. -/
theorem remoteCollectIffFourConditions :
    (∀ (lookup : PullRequestReference → RefLookupRaw) (prs : List PullRequest),
      collectDeletableBranches lookup prs = Except.ok (remoteCandidates lookup prs))
    ∧ (∀ (lookup : PullRequestReference → RefLookupRaw) (prRef : PullRequestReference),
        prRef.repo.isSome →
        (lookup prRef = RefLookupRaw.siblingList ∨ lookup prRef = RefLookupRaw.notFound404) →
        getReference lookup prRef = Except.ok none) :=
  ⟨fun lookup prs => collectDeletableBranches_eq_remoteCandidates lookup prs,
   fun lookup prRef hrepo hraw => by
    rw [getReference_of_repo_isSome lookup prRef hrepo]
    rcases hraw with h | h <;> simp [refLookupExact, h]⟩

/-- Witness for C5: a sibling-list answer for `prFirst`'s head ref is a
silent skip (`ok none`), via the theorem's second component. -/
theorem remoteCollectIffFourConditions_witness :
    prFirst.head.repo.isSome
    ∧ getReference (fun _ => RefLookupRaw.siblingList) prFirst.head = Except.ok none :=
  ⟨rfl, remoteCollectIffFourConditions.2 (fun _ => RefLookupRaw.siblingList) prFirst.head
    rfl (Or.inl rfl)⟩

lemma localPerform_reportedUnsafe_eq (regexTest : String → String → Option Bool)
    (branchStatus : String → Option BranchStatus) (deleteOk : String → Bool)
    (branches : List LocalBranch) (currentBranch : String) (prs : List PullRequest)
    (dryRun force : Bool) (selection : Option (List String)) :
    (localPerform regexTest branchStatus deleteOk branches currentBranch prs
        dryRun force selection).reportedUnsafe
      = ((filterSafeBranches regexTest branchStatus branches currentBranch
            (getMergedPRsMap prs) none).filter (fun a => !a.safetyCheck.safe)).map
          (fun a => (a.branch.name, a.safetyCheck.reason)) := by
  rw [localPerform]
  split
  · rename_i h0
    have hb : branches = [] := List.length_eq_zero.mp h0
    subst hb
    rfl
  · dsimp only
    split
    · rfl
    · split
      · rfl
      · rfl

lemma localPerform_deletions_sub (regexTest : String → String → Option Bool)
    (branchStatus : String → Option BranchStatus) (deleteOk : String → Bool)
    (branches : List LocalBranch) (currentBranch : String) (prs : List PullRequest)
    (dryRun force : Bool) (selection : Option (List String)) :
    ∀ n ∈ (localPerform regexTest branchStatus deleteOk branches currentBranch prs
        dryRun force selection).deletions,
      ∃ a ∈ filterSafeBranches regexTest branchStatus branches currentBranch
          (getMergedPRsMap prs) none,
        a.safetyCheck.safe = true ∧ a.branch.name = n := by
  intro n hn
  rw [localPerform] at hn
  split at hn
  · simp at hn
  · dsimp only at hn
    split at hn
    · simp at hn
    · split at hn
      · simp at hn
      · rename_i todo htodo
        dsimp only at hn
        split at hn
        · simp at hn
        · rw [List.mem_map] at hn
          obtain ⟨a, ha, hname⟩ := hn
          have hsafe : a ∈ (filterSafeBranches regexTest branchStatus branches currentBranch
              (getMergedPRsMap prs) none).filter (fun x => x.safetyCheck.safe) := by
            by_cases hif : (!force && !dryRun) = true
            · rw [if_pos hif] at htodo
              cases selection with
              | none => exact absurd htodo (by simp)
              | some s =>
                dsimp only at htodo
                split at htodo
                · exact absurd htodo (by simp)
                · cases htodo
                  exact List.mem_of_mem_filter ha
            · rw [if_neg hif] at htodo
              cases htodo
              exact ha
          have := List.mem_filter.mp hsafe
          exact ⟨a, this.1, by simpa using this.2, hname⟩

/-- C2: in local mode, `deleteLocalBranch` is only ever invoked for
branches whose safety verdict is safe, and every branch with an unsafe
verdict is reported with its reason and is never passed to a deletion
call — for every run, regardless of force, dry-run, or interactive
selection.  (Branch names are unique in a git repository, which the
hypothesis records.) -/
theorem localUnsafeNeverDeleted (regexTest : String → String → Option Bool)
    (branchStatus : String → Option BranchStatus) (deleteOk : String → Bool)
    (branches : List LocalBranch) (currentBranch : String) (prs : List PullRequest)
    (dryRun force : Bool) (selection : Option (List String))
    (hnames : (branches.map LocalBranch.name).Nodup) :
    (∀ n ∈ (localPerform regexTest branchStatus deleteOk branches currentBranch prs
        dryRun force selection).deletions,
      ∃ a ∈ filterSafeBranches regexTest branchStatus branches currentBranch
          (getMergedPRsMap prs) none,
        a.safetyCheck.safe = true ∧ a.branch.name = n)
    ∧ (∀ a ∈ filterSafeBranches regexTest branchStatus branches currentBranch
          (getMergedPRsMap prs) none,
        a.safetyCheck.safe = false →
          (a.branch.name, a.safetyCheck.reason)
              ∈ (localPerform regexTest branchStatus deleteOk branches currentBranch prs
                  dryRun force selection).reportedUnsafe
          ∧ a.branch.name ∉ (localPerform regexTest branchStatus deleteOk branches currentBranch
              prs dryRun force selection).deletions) := by
  refine ⟨localPerform_deletions_sub _ _ _ _ _ _ _ _ _, ?_⟩
  intro a ha hnotsafe
  constructor
  · rw [localPerform_reportedUnsafe_eq]
    exact List.mem_map_of_mem _ (List.mem_filter.mpr ⟨ha, by simp [hnotsafe]⟩)
  · intro hdel
    obtain ⟨a2, ha2, hsafe2, hname2⟩ :=
      localPerform_deletions_sub regexTest branchStatus deleteOk branches currentBranch prs
        dryRun force selection a.branch.name hdel
    obtain ⟨b, hb, hab⟩ := List.mem_map.mp ha
    obtain ⟨b2, hb2, hab2⟩ := List.mem_map.mp ha2
    have hbname : b.name = b2.name := by
      have e1 : a.branch = b := by rw [← hab]
      have e2 : a2.branch = b2 := by rw [← hab2]
      rw [← e1, ← e2, hname2]
    have hbeq : b = b2 :=
      List.inj_on_of_nodup_map hnames hb hb2 hbname
    rw [hbeq] at hab
    rw [hab] at hab2
    rw [← hab2] at hsafe2
    rw [hnotsafe] at hsafe2
    cases hsafe2

/-- Witness for C2: a two-branch repository where `main` is current and
`feature-1` is safe; only `feature-1` is deleted, `main` is reported. -/
theorem localUnsafeNeverDeleted_witness :
    (([⟨"main", "s1", true⟩, ⟨"feature-1", "s2", false⟩] : List LocalBranch).map
        LocalBranch.name).Nodup
    ∧ ((∀ n ∈ (localPerform regexNever statusClean (fun _ => true)
          [⟨"main", "s1", true⟩, ⟨"feature-1", "s2", false⟩] "main" [] false true none).deletions,
        ∃ a ∈ filterSafeBranches regexNever statusClean
            [⟨"main", "s1", true⟩, ⟨"feature-1", "s2", false⟩] "main" (getMergedPRsMap []) none,
          a.safetyCheck.safe = true ∧ a.branch.name = n)
      ∧ (∀ a ∈ filterSafeBranches regexNever statusClean
            [⟨"main", "s1", true⟩, ⟨"feature-1", "s2", false⟩] "main" (getMergedPRsMap []) none,
          a.safetyCheck.safe = false →
            (a.branch.name, a.safetyCheck.reason)
                ∈ (localPerform regexNever statusClean (fun _ => true)
                    [⟨"main", "s1", true⟩, ⟨"feature-1", "s2", false⟩] "main" [] false true
                    none).reportedUnsafe
            ∧ a.branch.name ∉ (localPerform regexNever statusClean (fun _ => true)
                [⟨"main", "s1", true⟩, ⟨"feature-1", "s2", false⟩] "main" [] false true
                none).deletions)) :=
  ⟨by decide,
    localUnsafeNeverDeleted regexNever statusClean (fun _ => true)
      [⟨"main", "s1", true⟩, ⟨"feature-1", "s2", false⟩] "main" [] false true none (by decide)⟩

/-- C7: with `dryRun` set, no mutating call is ever issued — no
`deleteLocalBranch` argument list and no `deleteReference` argument list
is produced in either mode — the non-mutating pipeline still runs (the
unsafe report and the candidate collection are those of the inputs), the
reported "would delete" count equals the number of selected candidate
branches (all of them, since interactive selection is skipped in
dry-run), and no mutation-failure error is counted. -/
theorem dryRunNeverMutates (regexTest : String → String → Option Bool)
    (branchStatus : String → Option BranchStatus) (deleteOk : String → Bool)
    (branches : List LocalBranch) (currentBranch : String) (prs : List PullRequest)
    (force : Bool) (selection : Option (List String))
    (lookup : PullRequestReference → RefLookupRaw) (deleteOkR : PullRequest → Bool)
    (prs2 : List PullRequest) (force2 : Bool) (selected2 : List String) :
    localPerform regexTest branchStatus deleteOk branches currentBranch prs
        true force selection
      = { reportedUnsafe := localUnsafeReported regexTest branchStatus branches currentBranch prs
          deletions := []
          deletedCount := localSafeCount regexTest branchStatus branches currentBranch prs
          errorCount := 0 }
    ∧ remotePerform lookup deleteOkR prs2 true force2 selected2
      = Except.ok { deletions := []
                    deletedCount := (remoteCandidates lookup prs2).length
                    errorCount := 0 } := by
  constructor
  · rw [localPerform]
    split
    · rename_i h0
      have hb : branches = [] := List.length_eq_zero.mp h0
      subst hb
      rfl
    · dsimp only
      rw [localUnsafeReported, localSafeCount]
      split
      · rename_i hs
        simp [hs]
      · simp
  · rw [remotePerform, collectDeletableBranches_eq_remoteCandidates]
    dsimp only
    split
    · rename_i h0
      simp [h0]
    · simp
